import Mathlib

/-!
Shallow embedding of the WireGuard dashboard peer pipeline
(src/components/MonitorEnlaces.tsx).  Record normalization, status
classification, aggregation and the filter/search engine are translated
into executable functions over strings modelled as lists of characters,
following the JavaScript string semantics the component relies on:
truthiness of the empty string, String.prototype.includes, split, trim,
toLowerCase restricted to ASCII letters, and the two regular expressions
used for the tunnel address and the MC number.
-/

abbrev Str := List Char

def str (s : String) : Str := s.data

/-- JavaScript `a || b` for an optional string: both a missing field and
the empty string are falsy. -/
def jsOrStr (a : Option Str) (b : Str) : Str :=
  match a with
  | none => b
  | some s => if s.isEmpty then b else s

/-- `startsWithStr p s` : the string `s` starts with the pattern `p`. -/
def startsWithStr : Str → Str → Bool
  | [], _ => true
  | _ :: _, [] => false
  | p :: ps, c :: cs => p == c && startsWithStr ps cs

/-- JavaScript `s.includes(pat)` : `pat` occurs contiguously in `s`. -/
def containsStr : Str → Str → Bool
  | [], pat => startsWithStr pat []
  | c :: cs, pat => startsWithStr pat (c :: cs) || containsStr cs pat

/-- JavaScript `s.split(',')`. -/
def splitOnComma : Str → List Str
  | [] => [[]]
  | c :: cs =>
    if c == ',' then [] :: splitOnComma cs
    else
      match splitOnComma cs with
      | [] => [[c]]
      | r :: rs => (c :: r) :: rs

/-- JavaScript `s.trim()` : whitespace removed from both ends. -/
def trimStr (s : Str) : Str :=
  ((s.dropWhile Char.isWhitespace).reverse.dropWhile Char.isWhitespace).reverse

/-- Maximal leading run of decimal digits, with the remaining suffix. -/
def digitsOf : Str → Str × Str
  | [] => ([], [])
  | c :: cs =>
    if c.isDigit then
      let r := digitsOf cs
      (c :: r.1, r.2)
    else ([], c :: cs)

/-- JavaScript `parseInt` on a string of decimal digits. -/
def digitsToNat (d : Str) : Nat :=
  d.foldl (fun n c => n * 10 + (c.toNat - 48)) 0

/-- One attempt of the pattern `\d+\.\d+\.\d+\.\d+` anchored at the start
of `s`.  The digit runs are maximal; on this pattern regex backtracking
can never succeed where maximal munch fails (shrinking a `\d+` leaves a
digit where a dot is required), so the translation is exact. -/
def matchQuadHere (s : Str) : Option Str :=
  if (digitsOf s).1 = [] then none
  else
    match (digitsOf s).2 with
    | '.' :: r2 =>
      if (digitsOf r2).1 = [] then none
      else
        match (digitsOf r2).2 with
        | '.' :: r4 =>
          if (digitsOf r4).1 = [] then none
          else
            match (digitsOf r4).2 with
            | '.' :: r6 =>
              if (digitsOf r6).1 = [] then none
              else
                some ((digitsOf s).1 ++ '.' :: ((digitsOf r2).1 ++ '.' ::
                  ((digitsOf r4).1 ++ '.' :: (digitsOf r6).1)))
            | _ => none
        | _ => none
    | _ => none

/-- JavaScript `s.match(/(\d+\.\d+\.\d+\.\d+)/)` : leftmost match of the
dotted-quad pattern. -/
def findQuad : Str → Option Str
  | [] => none
  | c :: cs =>
    match matchQuadHere (c :: cs) with
    | some m => some m
    | none => findQuad cs

/-- One attempt of the pattern `/MC(\d+)/i` anchored at the start of `s`,
returning the digit capture. -/
def matchMCHere (s : Str) : Option Str :=
  match s with
  | a :: b :: rest =>
    if (a == 'M' || a == 'm') && (b == 'C' || b == 'c') then
      let d := digitsOf rest
      if d.1 = [] then none else some d.1
    else none
  | _ => none

/-- JavaScript `name.match(/MC(\d+)/i)` : leftmost match, digit capture. -/
def findMC : Str → Option Str
  | [] => none
  | c :: cs =>
    match matchMCHere (c :: cs) with
    | some d => some d
    | none => findMC cs

/-- The extracted MC number: leftmost case-insensitive `MC`+digits match,
digits parsed as a decimal integer. -/
def findMCNum (s : Str) : Option Nat := (findMC s).map digitsToNat

def DDNS_RESERVED_MCS : List Nat := [2, 7, 14, 20, 26, 46, 62, 66, 70]

def STATIC_OVERRIDES : List (Nat × Str) :=
  [(5, str "172.16.100.26"), (8, str "190.2.221.40:10554"),
   (19, str "192.168.13.0/24"), (21, str "201.193.161.165"),
   (22, str "192.168.11.0/24"), (31, str "177.93.6.24"),
   (38, str "201.192.162.70:5554"), (63, str "177.93.31.175")]

/-- Raw peer record as returned by the router REST API (the
`WireGuardPeer` TypeScript interface); the `interface` field is named
`iface` here. -/
structure WireGuardPeer where
  id : Str
  allowedAddress : Str
  clientEndpoint : Str
  comment : Option Str
  currentEndpointAddress : Str
  iface : Str
  lastHandshake : Option Str
  name : Option Str
  disabled : Option Bool

/-- Normalized peer (the `ProcessedPeer` TypeScript interface). -/
structure ProcessedPeer where
  id : Str
  name : Str
  wgIP : Str
  lans : List Str
  status : Str
  lastHandshake : Str
  comment : Str
  endpointAddress : Str

/-- `peer.name || peer.comment || "Sin nombre"`. -/
def resolvedName (peer : WireGuardPeer) : Str :=
  jsOrStr peer.name (jsOrStr peer.comment (str "Sin nombre"))

/-- First dotted-quad in the allowed-address field, sentinel otherwise. -/
def wgIPOf (allowed : Str) : Str :=
  match findQuad allowed with
  | some m => m
  | none => str "N/A"

/-- The filter predicate on allowed-address entries:
`!addr.includes('100.100.100') && !addr.includes('172.16.100')`. -/
def lanKeep (addr : Str) : Bool :=
  !containsStr addr (str "100.100.100") && !containsStr addr (str "172.16.100")

/-- `peer["allowed-address"].split(',').filter(lanKeep).map(trim)`. -/
def lansOf (allowed : Str) : List Str :=
  ((splitOnComma allowed).filter lanKeep).map trimStr

/-- Truthiness of
`lh && !lh.includes('h') && !lh.includes('d') && !lh.includes('w')`. -/
def isActivePeer : Option Str → Bool
  | none => false
  | some s =>
    !s.isEmpty &&
      (!containsStr s (str "h") &&
        (!containsStr s (str "d") && !containsStr s (str "w")))

/-- Status computation of `processPeers`: handshake default, then the
reserved-DDNS override, then the static override, in source order. -/
def classifyStatus (lh : Option Str) (name : Str) : Str :=
  let status0 := if isActivePeer lh then str "active" else str "inactive"
  match findMCNum name with
  | none => status0
  | some mcNum =>
    let s1 :=
      if DDNS_RESERVED_MCS.contains mcNum then str "reserved-ddns" else status0
    if STATIC_OVERRIDES.any (fun s => s.1 == mcNum) then str "static-override"
    else s1

/-- Body of the `rawPeers.map` in `processPeers`. -/
def processPeer (peer : WireGuardPeer) : ProcessedPeer :=
  { id := peer.id
    name := resolvedName peer
    wgIP := wgIPOf peer.allowedAddress
    lans := lansOf peer.allowedAddress
    status := classifyStatus peer.lastHandshake (resolvedName peer)
    lastHandshake := jsOrStr peer.lastHandshake (str "never")
    comment := jsOrStr peer.comment []
    endpointAddress :=
      if peer.currentEndpointAddress.isEmpty then str "N/A"
      else peer.currentEndpointAddress }

def processPeers (rawPeers : List WireGuardPeer) : List ProcessedPeer :=
  rawPeers.map processPeer

/-- Aggregate statistics record set by `calculateStats`. -/
structure AggregateStats where
  total : Nat
  active : Nat
  inactive : Nat
  reserved : Nat
  static : Nat
  available : Int

def calculateStats (peersList : List ProcessedPeer) : AggregateStats :=
  { total := peersList.length
    active := (peersList.filter (fun p => p.status == str "active")).length
    inactive := (peersList.filter (fun p => p.status == str "inactive")).length
    reserved :=
      (peersList.filter (fun p => p.status == str "reserved-ddns")).length
    static :=
      (peersList.filter (fun p => p.status == str "static-override")).length
    available := (200 : Int) - (peersList.length : Int) }

def isUpperChar (c : Char) : Bool :=
  decide (65 ≤ c.toNat) && decide (c.toNat ≤ 90)

def isAsciiAlpha (c : Char) : Bool :=
  isUpperChar c || (decide (97 ≤ c.toNat) && decide (c.toNat ≤ 122))

/-- JavaScript `toLowerCase`, restricted to ASCII letters (the only case
mapping the component's data can exercise). -/
def lowerChar (c : Char) : Char :=
  if isUpperChar c then Char.ofNat (c.toNat + 32) else c

def lowerStr (s : Str) : Str := s.map lowerChar

/-- The free-text predicate of the filter engine:
`name.toLowerCase().includes(q.toLowerCase()) || wgIP.includes(q) ||
comment.toLowerCase().includes(q.toLowerCase())`. -/
def searchMatch (peer : ProcessedPeer) (searchTerm : Str) : Bool :=
  containsStr (lowerStr peer.name) (lowerStr searchTerm) ||
    (containsStr peer.wgIP searchTerm ||
      containsStr (lowerStr peer.comment) (lowerStr searchTerm))

/-- The filter effect: text predicate when the search term is truthy,
then status equality unless the filter is `all`. -/
def filterPeers (peers : List ProcessedPeer) (searchTerm : Str)
    (filterStatus : Str) : List ProcessedPeer :=
  let f1 :=
    if searchTerm.isEmpty then peers
    else peers.filter (fun p => searchMatch p searchTerm)
  if filterStatus == str "all" then f1
  else f1.filter (fun p => p.status == filterStatus)

/-! ### Small helper lemmas -/

theorem isEmpty_false_of_ne_nil {s : Str} (h : s ≠ []) : s.isEmpty = false := by
  cases s with
  | nil => exact absurd rfl h
  | cons c t => rfl

theorem jsOrStr_ne_nil (a : Option Str) (b : Str) (hb : b ≠ []) :
    jsOrStr a b ≠ [] := by
  cases a with
  | none => simpa [jsOrStr] using hb
  | some s =>
    cases s with
    | nil => simpa [jsOrStr] using hb
    | cons c t => simp [jsOrStr]

/-! ### C1: status precedence -/

/-- C1: for any peer whose resolved name yields an MC number `n`, the
final status honours the precedence static-override over reserved over
the handshake default: a static-override key forces "static-override"
even when `n` is also reserved, otherwise a reserved id gives the
reserved status (code string "reserved-ddns"), otherwise the handshake
default is kept. -/
theorem C1_status_precedence (p : WireGuardPeer) (n : Nat)
    (h : findMCNum (resolvedName p) = some n) :
    (processPeer p).status =
      if STATIC_OVERRIDES.any (fun s => s.1 == n) then str "static-override"
      else if DDNS_RESERVED_MCS.contains n then str "reserved-ddns"
      else if isActivePeer p.lastHandshake then str "active"
      else str "inactive" := by
  have e : (processPeer p).status
      = classifyStatus p.lastHandshake (resolvedName p) := rfl
  rw [e]
  simp only [classifyStatus, h]

def mc8Peer : WireGuardPeer :=
  { id := str "*5", allowedAddress := str "10.10.10.8/32", clientEndpoint := [],
    comment := none, currentEndpointAddress := [], iface := str "wg0",
    lastHandshake := none, name := some (str "MC8"), disabled := none }

/-- C1 witness: MC8 is a static-override key, so the status is forced to
"static-override" even though the handshake default is inactive. -/
theorem C1_status_precedence_witness :
    (processPeer mc8Peer).status = str "static-override" :=
  (C1_status_precedence mc8Peer 8 (by decide)).trans (by decide)

/-! ### C2: handshake-based default status -/

/-- C2: when the resolved name has no MC match the status is the
handshake default: "active" exactly when the last-handshake field is
present, non-empty (the empty string is falsy) and free of the unit
markers h, d and w, and "inactive" otherwise. -/
theorem C2_default_status (p : WireGuardPeer)
    (h : findMCNum (resolvedName p) = none) :
    ((processPeer p).status = str "active" ↔
      ∃ s, p.lastHandshake = some s ∧ s ≠ [] ∧
        containsStr s (str "h") = false ∧ containsStr s (str "d") = false ∧
        containsStr s (str "w") = false) ∧
    ((processPeer p).status = str "active" ∨
      (processPeer p).status = str "inactive") := by
  have e : (processPeer p).status
      = classifyStatus p.lastHandshake (resolvedName p) := rfl
  have e2 : classifyStatus p.lastHandshake (resolvedName p)
      = if isActivePeer p.lastHandshake then str "active"
        else str "inactive" := by
    simp only [classifyStatus, h]
  rw [e, e2]
  by_cases hact : isActivePeer p.lastHandshake = true
  · rw [if_pos hact]
    refine ⟨⟨fun _ => ?_, fun _ => rfl⟩, Or.inl rfl⟩
    cases hlh : p.lastHandshake with
    | none => rw [hlh] at hact; simp [isActivePeer] at hact
    | some s =>
      rw [hlh] at hact
      simp only [isActivePeer, Bool.and_eq_true, Bool.not_eq_true'] at hact
      obtain ⟨h1, h2, h3, h4⟩ := hact
      refine ⟨s, rfl, ?_, h2, h3, h4⟩
      intro hn
      subst hn
      simp at h1
  · rw [if_neg hact]
    have hact2 : isActivePeer p.lastHandshake = false := by
      cases hb : isActivePeer p.lastHandshake
      · rfl
      · exact absurd hb hact
    refine ⟨⟨fun hcontra => absurd hcontra (by decide), ?_⟩, Or.inr rfl⟩
    rintro ⟨s, hlh, hne, h1, h2, h3⟩
    rw [hlh] at hact2
    simp [isActivePeer, isEmpty_false_of_ne_nil hne, h1, h2, h3] at hact2

def routerPeer : WireGuardPeer :=
  { id := str "*9", allowedAddress := str "10.0.0.9/32", clientEndpoint := [],
    comment := none, currentEndpointAddress := [], iface := str "wg0",
    lastHandshake := some (str "15s"), name := some (str "router"),
    disabled := none }

/-- C2 witness: a peer named "router" (no MC match) with last handshake
"15s" (seconds marker only) is classified "active". -/
theorem C2_default_status_witness :
    (processPeer routerPeer).status = str "active" :=
  ((C2_default_status routerPeer (by decide)).1).mpr
    ⟨str "15s", rfl, by decide, by decide, by decide, by decide⟩

/-! ### C3: the spec scenario for MC7 (corrected) -/

def mc7Peer : WireGuardPeer :=
  { id := str "*1",
    allowedAddress := str "10.0.0.5/32,192.168.1.0/24,172.16.100.5",
    clientEndpoint := [], comment := none, currentEndpointAddress := [],
    iface := str "wg0", lastHandshake := some (str "2d3h"),
    name := some (str "MC7"), disabled := none }

/-- C3 counterexample: on the MC7 scenario record the code does not
produce the singleton localNetworks list the claim states; the
tunnel-address entry "10.0.0.5/32" is kept because the filter only
excludes entries containing the two infrastructure substrings. -/
theorem C3_scenario_counterexample :
    (processPeer mc7Peer).lans ≠ [str "192.168.1.0/24"] := by decide

/-- C3 amended: on the MC7 scenario record the tunnel address is
"10.0.0.5", localNetworks is ["10.0.0.5/32", "192.168.1.0/24"] (only
the 172.16.100.x entry is excluded; the tunnel-address entry is kept),
and the status is the reserved one ("reserved-ddns") even though the
handshake "2d3h" alone implies inactive. -/
theorem C3_scenario_amended :
    (processPeer mc7Peer).wgIP = str "10.0.0.5" ∧
    (processPeer mc7Peer).lans = [str "10.0.0.5/32", str "192.168.1.0/24"] ∧
    (processPeer mc7Peer).status = str "reserved-ddns" ∧
    isActivePeer mc7Peer.lastHandshake = false := by decide

/-! ### C6: name resolution -/

/-- C6: the normalized name is never empty and follows the resolution
order displayName, then comment, then the fixed unnamed-peer sentinel
(the code string "Sin nombre"), where an absent or empty field falls
through to the next source. -/
theorem C6_name_resolution (p : WireGuardPeer) :
    resolvedName p ≠ [] ∧
    (∀ s, p.name = some s → s ≠ [] → resolvedName p = s) ∧
    (∀ s, (p.name = none ∨ p.name = some []) → p.comment = some s →
      s ≠ [] → resolvedName p = s) ∧
    ((p.name = none ∨ p.name = some []) →
      (p.comment = none ∨ p.comment = some []) →
      resolvedName p = str "Sin nombre") := by
  refine ⟨?_, ?_, ?_, ?_⟩
  · exact jsOrStr_ne_nil _ _ (jsOrStr_ne_nil _ _ (by decide))
  · intro s hs hne
    rw [resolvedName, hs]
    simp [jsOrStr, isEmpty_false_of_ne_nil hne]
  · intro s hname hc hne
    have e : resolvedName p = jsOrStr p.comment (str "Sin nombre") := by
      rcases hname with h | h <;> rw [resolvedName, h] <;> simp [jsOrStr]
    rw [e, hc]
    simp [jsOrStr, isEmpty_false_of_ne_nil hne]
  · intro hname hcomment
    have e : resolvedName p = jsOrStr p.comment (str "Sin nombre") := by
      rcases hname with h | h <;> rw [resolvedName, h] <;> simp [jsOrStr]
    rw [e]
    rcases hcomment with h | h <;> rw [h] <;> simp [jsOrStr]

def commentOnlyPeer : WireGuardPeer :=
  { id := str "*3", allowedAddress := [], clientEndpoint := [],
    comment := some (str "backup"), currentEndpointAddress := [],
    iface := [], lastHandshake := none, name := some [], disabled := none }

/-- C6 witness: an empty displayName falls through to the comment
"backup", and the result is non-empty. -/
theorem C6_name_resolution_witness :
    resolvedName commentOnlyPeer ≠ [] ∧
    resolvedName commentOnlyPeer = str "backup" :=
  ⟨(C6_name_resolution commentOnlyPeer).1,
   (C6_name_resolution commentOnlyPeer).2.2.1 (str "backup") (Or.inr rfl)
     rfl (by decide)⟩

/-! ### C8: available capacity -/

def demoRawPeer : WireGuardPeer :=
  { id := str "*d", allowedAddress := str "10.0.0.77/32", clientEndpoint := [],
    comment := none, currentEndpointAddress := [], iface := str "wg0",
    lastHandshake := some (str "30s"), name := some (str "MC99"),
    disabled := none }

def demo205 : List WireGuardPeer := List.replicate 205 demoRawPeer

/-- C8: available is the exact integer difference 200 - total with no
clamping; for a batch of 205 peers it is -5. -/
theorem C8_available (l : List ProcessedPeer) :
    (calculateStats l).available = (200 : Int) - (l.length : Int) ∧
    (calculateStats (processPeers demo205)).available = -5 := by
  constructor
  · rfl
  · show (200 : Int) - ((processPeers demo205).length : Int) = -5
    rw [processPeers, List.length_map, demo205, List.length_replicate]
    decide

/-! ### C10: empty optional fields behave like absent fields -/

/-- C10: the normalizer treats an empty optional string exactly like an
absent field: an empty displayName falls through, an empty last
handshake yields the display sentinel "never" and the same status as an
absent handshake (the inactive default before overrides), an empty
endpoint address becomes "N/A", and an absent comment becomes the empty
string. -/
theorem C10_empty_as_absent (p : WireGuardPeer) :
    (p.name = some [] →
      resolvedName p = resolvedName { p with name := none }) ∧
    (p.lastHandshake = some [] →
      (processPeer p).lastHandshake = str "never" ∧
      (processPeer p).status
        = (processPeer { p with lastHandshake := none }).status) ∧
    (p.currentEndpointAddress = [] →
      (processPeer p).endpointAddress = str "N/A") ∧
    (p.comment = none → (processPeer p).comment = []) := by
  refine ⟨?_, ?_, ?_, ?_⟩
  · intro hn
    rw [resolvedName, hn]
    rfl
  · intro hlh
    constructor
    · show jsOrStr p.lastHandshake (str "never") = str "never"
      rw [hlh]
      rfl
    · show classifyStatus p.lastHandshake (resolvedName p)
        = classifyStatus none (resolvedName p)
      rw [hlh]
      rfl
  · intro hcea
    show (if p.currentEndpointAddress.isEmpty then str "N/A"
      else p.currentEndpointAddress) = str "N/A"
    rw [hcea]
    rfl
  · intro hc
    show jsOrStr p.comment [] = []
    rw [hc]
    rfl

def emptyFieldsPeer : WireGuardPeer :=
  { id := str "*4", allowedAddress := str "10.0.0.4/32", clientEndpoint := [],
    comment := none, currentEndpointAddress := [], iface := [],
    lastHandshake := some [], name := some [], disabled := none }

/-- C10 witness: a peer with empty name, empty last handshake, empty
endpoint address and no comment gets the absent-field treatment
everywhere. -/
theorem C10_empty_as_absent_witness :
    resolvedName emptyFieldsPeer
      = resolvedName { emptyFieldsPeer with name := none } ∧
    (processPeer emptyFieldsPeer).lastHandshake = str "never" ∧
    (processPeer emptyFieldsPeer).endpointAddress = str "N/A" ∧
    (processPeer emptyFieldsPeer).comment = [] :=
  ⟨(C10_empty_as_absent emptyFieldsPeer).1 rfl,
   ((C10_empty_as_absent emptyFieldsPeer).2.1 rfl).1,
   (C10_empty_as_absent emptyFieldsPeer).2.2.1 rfl,
   (C10_empty_as_absent emptyFieldsPeer).2.2.2 rfl⟩

/-! ### C7: per-status counts sum to the total -/

/-- Every status produced by the classifier is one of the four code
status strings. -/
theorem classifyStatus_mem (lh : Option Str) (name : Str) :
    classifyStatus lh name = str "active" ∨
    classifyStatus lh name = str "inactive" ∨
    classifyStatus lh name = str "reserved-ddns" ∨
    classifyStatus lh name = str "static-override" := by
  unfold classifyStatus
  cases hm : findMCNum name <;> dsimp only <;> split_ifs <;> decide

/-- Counting pass: when every status is one of the four code strings the
four filter lengths sum to the list length. -/
theorem count_by_status (l : List ProcessedPeer)
    (h : ∀ p ∈ l, p.status = str "active" ∨ p.status = str "inactive" ∨
      p.status = str "reserved-ddns" ∨ p.status = str "static-override") :
    (l.filter (fun p => p.status == str "active")).length +
      (l.filter (fun p => p.status == str "inactive")).length +
      (l.filter (fun p => p.status == str "reserved-ddns")).length +
      (l.filter (fun p => p.status == str "static-override")).length
      = l.length := by
  induction l with
  | nil => rfl
  | cons p t ih =>
    have ht := ih (fun q hq => h q (List.mem_cons_of_mem p hq))
    have t1 : (str "active" == str "active") = true := by decide
    have t2 : (str "inactive" == str "inactive") = true := by decide
    have t3 : (str "reserved-ddns" == str "reserved-ddns") = true := by decide
    have t4 : (str "static-override" == str "static-override") = true := by
      decide
    have f12 : (str "active" == str "inactive") = false := by decide
    have f13 : (str "active" == str "reserved-ddns") = false := by decide
    have f14 : (str "active" == str "static-override") = false := by decide
    have f21 : (str "inactive" == str "active") = false := by decide
    have f23 : (str "inactive" == str "reserved-ddns") = false := by decide
    have f24 : (str "inactive" == str "static-override") = false := by decide
    have f31 : (str "reserved-ddns" == str "active") = false := by decide
    have f32 : (str "reserved-ddns" == str "inactive") = false := by decide
    have f34 : (str "reserved-ddns" == str "static-override") = false := by
      decide
    have f41 : (str "static-override" == str "active") = false := by decide
    have f42 : (str "static-override" == str "inactive") = false := by decide
    have f43 : (str "static-override" == str "reserved-ddns") = false := by
      decide
    rcases h p (List.mem_cons_self p t) with h1 | h1 | h1 | h1 <;>
      simp [List.filter_cons, h1, t1, t2, t3, t4, f12, f13, f14, f21,
        f23, f24, f31, f32, f34, f41, f42, f43] <;>
      omega

/-- C7: for every input batch, the aggregator's four per-status counts
sum exactly to the total, which is the length of the processed list. -/
theorem C7_stats_sum (raw : List WireGuardPeer) :
    (calculateStats (processPeers raw)).active +
      (calculateStats (processPeers raw)).inactive +
      (calculateStats (processPeers raw)).reserved +
      (calculateStats (processPeers raw)).static
      = (calculateStats (processPeers raw)).total ∧
    (calculateStats (processPeers raw)).total = (processPeers raw).length := by
  refine ⟨?_, rfl⟩
  refine count_by_status (processPeers raw) ?_
  intro p hp
  rw [processPeers] at hp
  obtain ⟨r, hr, rfl⟩ := List.mem_map.mp hp
  exact classifyStatus_mem r.lastHandshake (resolvedName r)

/-! ### Characterization of the string primitives -/

theorem startsWithStr_iff (p s : Str) :
    startsWithStr p s = true ↔ ∃ t, s = p ++ t := by
  induction p generalizing s with
  | nil =>
    constructor
    · intro _
      exact ⟨s, rfl⟩
    · intro _
      rfl
  | cons a ps ih =>
    cases s with
    | nil => simp [startsWithStr]
    | cons c cs =>
      simp only [startsWithStr, Bool.and_eq_true, beq_iff_eq]
      constructor
      · rintro ⟨rfl, h⟩
        obtain ⟨t, rfl⟩ := (ih cs).mp h
        exact ⟨t, rfl⟩
      · rintro ⟨t, ht⟩
        rw [List.cons_append] at ht
        injection ht with h1 h2
        exact ⟨h1.symm, (ih cs).mpr ⟨t, h2⟩⟩

theorem containsStr_iff (s pat : Str) :
    containsStr s pat = true ↔ ∃ x y, s = x ++ (pat ++ y) := by
  induction s with
  | nil =>
    simp only [containsStr, startsWithStr_iff]
    constructor
    · rintro ⟨t, ht⟩
      exact ⟨[], t, ht⟩
    · rintro ⟨x, y, hxy⟩
      obtain ⟨hx, h2⟩ := List.append_eq_nil.mp hxy.symm
      exact ⟨y, h2.symm⟩
  | cons c cs ih =>
    simp only [containsStr, Bool.or_eq_true, startsWithStr_iff, ih]
    constructor
    · rintro (⟨t, ht⟩ | ⟨x, y, hxy⟩)
      · exact ⟨[], t, by simpa using ht⟩
      · exact ⟨c :: x, y, by rw [hxy]; rfl⟩
    · rintro ⟨x, y, hxy⟩
      cases x with
      | nil => exact Or.inl ⟨y, by simpa using hxy⟩
      | cons a x2 =>
        right
        rw [List.cons_append] at hxy
        injection hxy with h1 h2
        exact ⟨x2, y, h2⟩

/-! ### Trimming commutes with the infrastructure-substring test -/

theorem containsStr_dropWhile (pat : Str) (hne : pat ≠ [])
    (hws : pat.all (fun c => !c.isWhitespace) = true) (a : Str) :
    containsStr (a.dropWhile Char.isWhitespace) pat = containsStr a pat := by
  induction a with
  | nil => rfl
  | cons c t ih =>
    by_cases hc : Char.isWhitespace c = true
    · rw [List.dropWhile_cons, if_pos hc, ih]
      have hsw : startsWithStr pat (c :: t) = false := by
        cases pat with
        | nil => exact absurd rfl hne
        | cons p ps =>
          have hp : p.isWhitespace = false := by
            cases hpw : p.isWhitespace
            · rfl
            · exfalso
              simp only [List.all_cons, Bool.and_eq_true] at hws
              obtain ⟨h1, _⟩ := hws
              simp [hpw] at h1
          have hpc : (p == c) = false := by
            refine beq_eq_false_iff_ne.mpr ?_
            intro he
            rw [he, hc] at hp
            exact absurd hp (by decide)
          simp [startsWithStr, hpc]
      simp only [containsStr, hsw, Bool.false_or]
    · rw [List.dropWhile_cons, if_neg hc]

theorem containsStr_reverse (a pat : Str) :
    containsStr a.reverse pat.reverse = containsStr a pat := by
  have key : ∀ s q : Str, containsStr s q = true →
      containsStr s.reverse q.reverse = true := by
    intro s q h
    obtain ⟨x, y, rfl⟩ := (containsStr_iff s q).mp h
    refine (containsStr_iff _ _).mpr ⟨y.reverse, x.reverse, ?_⟩
    simp [List.reverse_append, List.append_assoc]
  cases h1 : containsStr a pat with
  | true =>
    exact key a pat h1
  | false =>
    cases h2 : containsStr a.reverse pat.reverse with
    | false => rfl
    | true =>
      have h3 := key a.reverse pat.reverse h2
      simp only [List.reverse_reverse] at h3
      rw [h1] at h3
      exact absurd h3 (by decide)

theorem containsStr_trim (pat : Str) (hne : pat ≠ [])
    (hws : pat.all (fun c => !c.isWhitespace) = true) (a : Str) :
    containsStr (trimStr a) pat = containsStr a pat := by
  have hne2 : pat.reverse ≠ [] := by
    intro h
    apply hne
    simpa using congrArg List.reverse h
  have hws2 : pat.reverse.all (fun c => !c.isWhitespace) = true := by
    simpa [List.all_reverse] using hws
  have st1 : ∀ X : Str, containsStr X.reverse pat = containsStr X pat.reverse := by
    intro X
    conv_lhs => rw [show pat = pat.reverse.reverse by simp]
    exact containsStr_reverse X pat.reverse
  rw [trimStr, st1, containsStr_dropWhile pat.reverse hne2 hws2,
    containsStr_reverse]
  exact containsStr_dropWhile pat hne hws a

/-! ### C4: localNetworks -/

theorem lanKeep_trim (a : Str) : lanKeep (trimStr a) = lanKeep a := by
  rw [lanKeep, lanKeep,
    containsStr_trim (str "100.100.100") (by decide) (by decide) a,
    containsStr_trim (str "172.16.100") (by decide) (by decide) a]

/-- Modelled from the spec wording of §4.1: split the allowed-address
field on commas, trim each piece, then exclude the pieces containing
one of the two infrastructure substrings. -/
def lansSpec (allowed : Str) : List Str :=
  ((splitOnComma allowed).map trimStr).filter lanKeep

/-- C4: localNetworks equals the spec pipeline — split on commas, trim
each piece, exclude exactly the pieces containing "100.100.100" or
"172.16.100" — with input order preserved and duplicates kept (the code
filters before trimming, which is equal because the two substrings
contain no whitespace). -/
theorem C4_local_networks (allowed : Str) : lansOf allowed = lansSpec allowed := by
  rw [lansOf, lansSpec]
  generalize splitOnComma allowed = l
  induction l with
  | nil => rfl
  | cons a t ih =>
    by_cases h : lanKeep a = true
    · simp [List.filter_cons, List.map_cons, h, lanKeep_trim, ih]
    · have hf : lanKeep a = false := by
        cases hb : lanKeep a
        · rfl
        · exact absurd hb h
      simp [List.filter_cons, List.map_cons, hf, lanKeep_trim, ih]

/-! ### C9: case behaviour of the free-text predicate -/

theorem lowerChar_of_not_alpha (c : Char) (h : isAsciiAlpha c = false) :
    lowerChar c = c := by
  have hu : isUpperChar c = false := by
    cases hb : isUpperChar c
    · rfl
    · rw [isAsciiAlpha, hb] at h
      simp at h
  simp [lowerChar, hu]

theorem alpha_shift (n : Nat) (h1 : 65 ≤ n) (h2 : n ≤ 90) :
    isAsciiAlpha (Char.ofNat (n + 32)) = true := by
  interval_cases n <;> decide

theorem alpha_lowerChar (c : Char) (h : isAsciiAlpha c = true) :
    isAsciiAlpha (lowerChar c) = true := by
  cases hu : isUpperChar c
  · simpa [lowerChar, hu] using h
  · have hb : 65 ≤ c.toNat ∧ c.toNat ≤ 90 := by
      have h2 := hu
      rw [isUpperChar] at h2
      simpa [Bool.and_eq_true, decide_eq_true_eq] using h2
    simpa [lowerChar, hu] using alpha_shift c.toNat hb.1 hb.2

theorem lowerStr_id_of_no_alpha (q : Str) (h : q.any isAsciiAlpha = false) :
    lowerStr q = q := by
  induction q with
  | nil => rfl
  | cons a t ih =>
    rw [List.any_cons] at h
    have ha : isAsciiAlpha a = false := by
      cases hb : isAsciiAlpha a
      · rfl
      · rw [hb] at h
        simp at h
    have ht : t.any isAsciiAlpha = false := by
      cases hb : t.any isAsciiAlpha
      · rfl
      · rw [hb] at h
        simp at h
    show List.map lowerChar (a :: t) = a :: t
    rw [List.map_cons, lowerChar_of_not_alpha a ha]
    have h2 := ih ht
    rw [lowerStr] at h2
    rw [h2]

theorem any_alpha_transfer (q1 q2 : Str) (hq : lowerStr q1 = lowerStr q2)
    (h : q1.any isAsciiAlpha = true) : q2.any isAsciiAlpha = true := by
  obtain ⟨a, ha, hal⟩ := List.any_eq_true.mp h
  have hmem : lowerChar a ∈ lowerStr q2 := by
    rw [← hq]
    exact List.mem_map_of_mem lowerChar ha
  obtain ⟨b, hb, hbe⟩ := List.mem_map.mp hmem
  refine List.any_eq_true.mpr ⟨b, hb, ?_⟩
  cases hba : isAsciiAlpha b
  · exfalso
    have hbb : lowerChar b = b := lowerChar_of_not_alpha b hba
    rw [hbb] at hbe
    have h3 : isAsciiAlpha (lowerChar a) = true := alpha_lowerChar a hal
    rw [← hbe, hba] at h3
    exact absurd h3 (by decide)
  · rfl

theorem containsStr_false_of_alpha (s q : Str)
    (hs : s.all (fun c => !isAsciiAlpha c) = true)
    (hq : q.any isAsciiAlpha = true) : containsStr s q = false := by
  cases hc : containsStr s q
  · rfl
  · exfalso
    obtain ⟨x, y, hxy⟩ := (containsStr_iff s q).mp hc
    obtain ⟨a, ha, hal⟩ := List.any_eq_true.mp hq
    have hmem : a ∈ s := by
      rw [hxy]
      exact List.mem_append.mpr (Or.inr (List.mem_append.mpr (Or.inl ha)))
    have h4 := List.all_eq_true.mp hs a hmem
    simp [hal] at h4

theorem containsStr_letterfree (s q1 q2 : Str)
    (hs : s.all (fun c => !isAsciiAlpha c) = true)
    (hq : lowerStr q1 = lowerStr q2) :
    containsStr s q1 = containsStr s q2 := by
  cases h1 : q1.any isAsciiAlpha
  · cases h2 : q2.any isAsciiAlpha
    · have e1 := lowerStr_id_of_no_alpha q1 h1
      have e2 := lowerStr_id_of_no_alpha q2 h2
      rw [e1, e2] at hq
      rw [hq]
    · have h3 := any_alpha_transfer q2 q1 hq.symm h2
      rw [h3] at h1
      exact absurd h1 (by decide)
  · have h2 : q2.any isAsciiAlpha = true := any_alpha_transfer q1 q2 hq h1
    rw [containsStr_false_of_alpha s q1 hs h1,
      containsStr_false_of_alpha s q2 hs h2]

def naPeer : WireGuardPeer :=
  { id := str "*7", allowedAddress := str "no address", clientEndpoint := [],
    comment := none, currentEndpointAddress := [], iface := str "wg0",
    lastHandshake := some (str "10s"), name := some (str "router"),
    disabled := none }

/-- C9 counterexample: the queries "N/A" and "n/a" differ only in letter
case, yet on a peer whose tunnelAddress is the sentinel "N/A" the first
passes the text predicate and the second does not, because the
tunnelAddress comparison is case-sensitive. -/
theorem C9_search_counterexample :
    lowerStr (str "N/A") = lowerStr (str "n/a") ∧
    (filterPeers [processPeer naPeer] (str "N/A") (str "all")).length = 1 ∧
    (filterPeers [processPeer naPeer] (str "n/a") (str "all")).length = 0 := by
  decide

/-- C9 amended: the name and comment comparisons are case-insensitive,
but the tunnelAddress comparison is case-sensitive; the text predicate
is invariant under changes of the query's letter case whenever the
peer's tunnelAddress contains no ASCII letter (every actual dotted-quad
address), while the sentinel "N/A" breaks the invariance. -/
theorem C9_search_case_insensitive (p : ProcessedPeer) (q1 q2 : Str)
    (hq : lowerStr q1 = lowerStr q2)
    (hip : p.wgIP.all (fun c => !isAsciiAlpha c) = true) :
    searchMatch p q1 = searchMatch p q2 := by
  rw [searchMatch, searchMatch, hq,
    containsStr_letterfree p.wgIP q1 q2 hip hq]

def quadPeer : ProcessedPeer :=
  { id := str "*8", name := str "Router MC40", wgIP := str "10.0.0.40",
    lans := [], status := str "active", lastHandshake := str "10s",
    comment := str "Main LINK", endpointAddress := str "N/A" }

/-- C9 witness: with a letter-free tunnelAddress the text predicate
agrees on the queries "ROUTER" and "rOuTeR". -/
theorem C9_search_case_insensitive_witness :
    searchMatch quadPeer (str "ROUTER")
      = searchMatch quadPeer (str "rOuTeR") :=
  C9_search_case_insensitive quadPeer (str "ROUTER") (str "rOuTeR")
    (by decide) (by decide)

/-! ### C5: the first dotted-quad substring -/

/-- A whole-string match of the pattern `\d+\.\d+\.\d+\.\d+`. -/
def IsQuad (m : Str) : Prop :=
  ∃ d1 d2 d3 d4 : Str,
    d1 ≠ [] ∧ d2 ≠ [] ∧ d3 ≠ [] ∧ d4 ≠ [] ∧
    d1.all Char.isDigit = true ∧ d2.all Char.isDigit = true ∧
    d3.all Char.isDigit = true ∧ d4.all Char.isDigit = true ∧
    m = d1 ++ '.' :: (d2 ++ '.' :: (d3 ++ '.' :: d4))

/-- `s` starts with `q`. -/
def StartsWithP (q s : Str) : Prop := ∃ t, s = q ++ t

/-- `q` occurs contiguously somewhere in `s`. -/
def OccursIn (q s : Str) : Prop := ∃ x y, s = x ++ (q ++ y)

/-- Some dotted-quad match starts at position `j` of `s`. -/
def QuadAt (s : Str) (j : Nat) : Prop :=
  ∃ m, IsQuad m ∧ StartsWithP m (s.drop j)

theorem digitsOf_append_parts (s : Str) :
    (digitsOf s).1 ++ (digitsOf s).2 = s := by
  induction s with
  | nil => rfl
  | cons c cs ih =>
    by_cases hc : c.isDigit = true
    · simp [digitsOf, hc, ih]
    · have hc2 : c.isDigit = false := by
        cases hb : c.isDigit
        · rfl
        · exact absurd hb hc
      simp [digitsOf, hc2]

theorem digitsOf_all_digits (s : Str) :
    (digitsOf s).1.all Char.isDigit = true := by
  induction s with
  | nil => rfl
  | cons c cs ih =>
    by_cases hc : c.isDigit = true
    · simp [digitsOf, hc, ih]
    · have hc2 : c.isDigit = false := by
        cases hb : c.isDigit
        · rfl
        · exact absurd hb hc
      simp [digitsOf, hc2]

theorem digitsOf_append_stop (d : Str) (c : Char) (t : Str)
    (hd : d.all Char.isDigit = true) (hc : c.isDigit = false) :
    digitsOf (d ++ c :: t) = (d, c :: t) := by
  induction d with
  | nil => simp [digitsOf, hc]
  | cons a d2 ih =>
    simp only [List.all_cons, Bool.and_eq_true] at hd
    obtain ⟨ha, hd2⟩ := hd
    simp [digitsOf, ha, ih hd2]

theorem digitsOf_pos (d t : Str) (hne : d ≠ [])
    (hd : d.all Char.isDigit = true) : (digitsOf (d ++ t)).1 ≠ [] := by
  cases d with
  | nil => exact absurd rfl hne
  | cons a d2 =>
    simp only [List.all_cons, Bool.and_eq_true] at hd
    obtain ⟨ha, _⟩ := hd
    simp [digitsOf, ha]

theorem matchQuadHere_sound (s m : Str) (h : matchQuadHere s = some m) :
    IsQuad m ∧ StartsWithP m s := by
  rw [matchQuadHere] at h
  by_cases h1 : (digitsOf s).1 = []
  · rw [if_pos h1] at h
    cases h
  rw [if_neg h1] at h
  split at h
  case _ r2 heq1 =>
    by_cases h2 : (digitsOf r2).1 = []
    · rw [if_pos h2] at h
      cases h
    rw [if_neg h2] at h
    split at h
    case _ r4 heq2 =>
      by_cases h3 : (digitsOf r4).1 = []
      · rw [if_pos h3] at h
        cases h
      rw [if_neg h3] at h
      split at h
      case _ r6 heq3 =>
        by_cases h4 : (digitsOf r6).1 = []
        · rw [if_pos h4] at h
          cases h
        rw [if_neg h4] at h
        injection h with hm
        constructor
        · exact ⟨(digitsOf s).1, (digitsOf r2).1, (digitsOf r4).1,
            (digitsOf r6).1, h1, h2, h3, h4, digitsOf_all_digits s,
            digitsOf_all_digits r2, digitsOf_all_digits r4,
            digitsOf_all_digits r6, hm.symm⟩
        · refine ⟨(digitsOf r6).2, ?_⟩
          have e0 := digitsOf_append_parts s
          have e2 := digitsOf_append_parts r2
          have e4 := digitsOf_append_parts r4
          have e6 := digitsOf_append_parts r6
          rw [← hm]
          conv_lhs => rw [← e0, heq1, ← e2, heq2, ← e4, heq3, ← e6]
          simp [List.append_assoc]
      case _ =>
        cases h
    case _ =>
      cases h
  case _ =>
    cases h

theorem matchQuadHere_complete (s m : Str) (hq : IsQuad m)
    (hs : StartsWithP m s) : matchQuadHere s ≠ none := by
  obtain ⟨d1, d2, d3, d4, hn1, hn2, hn3, hn4, ha1, ha2, ha3, ha4, rfl⟩ := hq
  obtain ⟨t, rfl⟩ := hs
  have hdot : ('.' : Char).isDigit = false := by decide
  have e1 : digitsOf ((d1 ++ '.' :: (d2 ++ '.' :: (d3 ++ '.' :: d4))) ++ t)
      = (d1, '.' :: ((d2 ++ '.' :: (d3 ++ '.' :: d4)) ++ t)) := by
    simpa [List.append_assoc] using
      digitsOf_append_stop d1 '.' ((d2 ++ '.' :: (d3 ++ '.' :: d4)) ++ t)
        ha1 hdot
  have e2 : digitsOf ((d2 ++ '.' :: (d3 ++ '.' :: d4)) ++ t)
      = (d2, '.' :: ((d3 ++ '.' :: d4) ++ t)) := by
    simpa [List.append_assoc] using
      digitsOf_append_stop d2 '.' ((d3 ++ '.' :: d4) ++ t) ha2 hdot
  have e3 : digitsOf ((d3 ++ '.' :: d4) ++ t) = (d3, '.' :: (d4 ++ t)) := by
    simpa [List.append_assoc] using
      digitsOf_append_stop d3 '.' (d4 ++ t) ha3 hdot
  have e4 := digitsOf_pos d4 t hn4 ha4
  rw [matchQuadHere]
  simp only [e1, e2, e3, if_neg hn1, if_neg hn2, if_neg hn3, if_neg e4]
  simp

theorem findQuad_none_all : ∀ s : Str, findQuad s = none →
    ∀ j, matchQuadHere (s.drop j) = none := by
  intro s
  induction s with
  | nil =>
    intro _ j
    rw [List.drop_nil]
    rfl
  | cons c cs ih =>
    intro h j
    cases hm : matchQuadHere (c :: cs) with
    | some m =>
      simp [findQuad, hm] at h
    | none =>
      simp only [findQuad, hm] at h
      cases j with
      | zero => simpa using hm
      | succ j2 =>
        rw [List.drop_succ_cons]
        exact ih h j2

theorem findQuad_some_first : ∀ s m : Str, findQuad s = some m →
    ∃ i, matchQuadHere (s.drop i) = some m ∧
      ∀ j, j < i → matchQuadHere (s.drop j) = none := by
  intro s
  induction s with
  | nil =>
    intro m h
    simp [findQuad] at h
  | cons c cs ih =>
    intro m h
    cases hm : matchQuadHere (c :: cs) with
    | some m0 =>
      simp only [findQuad, hm, Option.some.injEq] at h
      subst h
      exact ⟨0, by simpa using hm, fun j hj => absurd hj (Nat.not_lt_zero j)⟩
    | none =>
      simp only [findQuad, hm] at h
      obtain ⟨i, hi1, hi2⟩ := ih m h
      refine ⟨i + 1, by simpa [List.drop_succ_cons] using hi1, ?_⟩
      intro j hj
      cases j with
      | zero => simpa using hm
      | succ j2 =>
        rw [List.drop_succ_cons]
        exact hi2 j2 (Nat.lt_of_succ_lt_succ hj)

theorem occursIn_iff_drop (q s : Str) :
    OccursIn q s ↔ ∃ i, StartsWithP q (s.drop i) := by
  constructor
  · rintro ⟨x, y, rfl⟩
    refine ⟨x.length, y, ?_⟩
    rw [List.drop_left]
  · rintro ⟨i, t, ht⟩
    refine ⟨s.take i, t, ?_⟩
    conv_lhs => rw [← List.take_append_drop i s]
    rw [ht]

/-- C5: the tunnel address is the positionally first dotted-quad
substring of the allowed-address field: any match returned by the
scanner is a quad occurring in the field, starting at a position before
which no quad starts; and when no quad occurs anywhere in the field the
sentinel "N/A" is produced. -/
theorem C5_first_quad (s : Str) :
    (∀ m, findQuad s = some m → IsQuad m ∧ OccursIn m s ∧
      ∃ i, StartsWithP m (s.drop i) ∧ ∀ j, j < i → ¬ QuadAt s j) ∧
    ((∀ m, IsQuad m → ¬ OccursIn m s) → wgIPOf s = str "N/A") := by
  constructor
  · intro m hm
    obtain ⟨i, hi1, hi2⟩ := findQuad_some_first s m hm
    obtain ⟨hq, ⟨t, ht⟩⟩ := matchQuadHere_sound (s.drop i) m hi1
    refine ⟨hq, (occursIn_iff_drop m s).mpr ⟨i, ⟨t, ht⟩⟩, i, ⟨t, ht⟩, ?_⟩
    intro j hj hquad
    obtain ⟨m2, hq2, hs2⟩ := hquad
    exact matchQuadHere_complete (s.drop j) m2 hq2 hs2 (hi2 j hj)
  · intro hno
    cases hf : findQuad s with
    | none => rw [wgIPOf, hf]
    | some m =>
      obtain ⟨i, hi1, _⟩ := findQuad_some_first s m hf
      obtain ⟨hq, hst⟩ := matchQuadHere_sound (s.drop i) m hi1
      exact absurd ((occursIn_iff_drop m s).mpr ⟨i, hst⟩) (hno m hq)

/-- C5 witness: on "10.0.0.5/32,192.168.1.0/24" the scanner returns
"10.0.0.5", a quad occurring at a position before which no quad
starts. -/
theorem C5_first_quad_witness :
    IsQuad (str "10.0.0.5") ∧
    OccursIn (str "10.0.0.5") (str "10.0.0.5/32,192.168.1.0/24") ∧
    ∃ i, StartsWithP (str "10.0.0.5")
        ((str "10.0.0.5/32,192.168.1.0/24").drop i) ∧
      ∀ j, j < i → ¬ QuadAt (str "10.0.0.5/32,192.168.1.0/24") j :=
  (C5_first_quad (str "10.0.0.5/32,192.168.1.0/24")).1 (str "10.0.0.5")
    (by decide)
